import Mathlib

/-!
# Shallow embedding of the `monkey` lexer (`src/token.rs`)

The repository contains a single component: a lexer over a `Vec<char>`
buffer with a `pos`/`read_pos` cursor pair and a cached current
character `ch : Option<char>`.  Every definition below is a direct
translation of the corresponding Rust item; the two scanning loops
(`eat_whitespace`, the `while let` inside `read_identifier`) are encoded
with an explicit fuel argument whose initial value (`input.length + 1`,
resp. `input.length + 2`) is large enough that the fuel never runs out
from any state: each iteration increments `read_pos` by one, and an
iteration whose read starts at `read_pos ≥ input.length` stores `none`
and is therefore the last one.
-/

namespace Monkey

/-- The `Token` enum from `src/token.rs`.  `Int` carries Rust's `i64`,
modelled as `Int`. -/
inductive Token where
  | Illegal : Token
  | Eof : Token
  | Ident : String → Token
  | Int : Int → Token
  | Assign : Token
  | Plus : Token
  | Minus : Token
  | Bang : Token
  | Asterisk : Token
  | Slash : Token
  | Eq : Token
  | NotEq : Token
  | Gt : Token
  | Lt : Token
  | Comma : Token
  | Semicolon : Token
  | LParen : Token
  | RParen : Token
  | LBrace : Token
  | RBrace : Token
  | Function : Token
  | Let : Token
  | Return : Token
  | If : Token
  | Else : Token
  | True : Token
  | False : Token
deriving DecidableEq, Repr

/-- The `LexerError` enum from `src/token.rs`. -/
inductive LexerError where
  | Invalid : LexerError
  | Empty : LexerError
deriving DecidableEq, Repr

/-- Rust's `char::is_whitespace`: the Unicode `White_Space` property,
written out as the full (finite) code-point list. -/
def rustIsWhitespace (c : Char) : Bool :=
  let n := c.toNat
  n = 0x9 || n = 0xA || n = 0xB || n = 0xC || n = 0xD || n = 0x20 ||
  n = 0x85 || n = 0xA0 || n = 0x1680 ||
  (0x2000 ≤ n && n ≤ 0x200A) ||
  n = 0x2028 || n = 0x2029 || n = 0x202F || n = 0x205F || n = 0x3000

/-- Rust's `char::is_alphabetic` is the Unicode `Alphabetic` property;
it is modelled here on the ASCII range (`a`–`z`, `A`–`Z`), which every
input appearing in this development inhabits. -/
def rustIsAlphabetic (c : Char) : Bool := c.isAlpha

/-- The `Lexer` struct: character buffer, cursor pair, cached current
character (`None` means past end-of-input). -/
structure Lexer where
  input : List Char
  pos : Nat
  read_pos : Nat
  ch : Option Char
deriving DecidableEq, Repr

namespace Lexer

/-- `Lexer::read_char`.  Note the source stores `self.input[self.pos]`
(the *old* `pos`) before overwriting `pos` with `read_pos`, while the
bounds test is on `read_pos`; the `getD` default is never reached in a
reachable state because there `pos ≤ read_pos`. -/
def read_char (l : Lexer) : Lexer :=
  { l with
    ch := if l.input.length ≤ l.read_pos then none
          else some (l.input.getD l.pos default)
    pos := l.read_pos
    read_pos := l.read_pos + 1 }

/-- The `Lexer` value built inside `Lexer::new`, after the initial
`read_char` call. -/
def init (input : List Char) : Lexer :=
  read_char { input := input, pos := 0, read_pos := 0, ch := none }

/-- `Lexer::new`.  Reading an already-materialised character sequence
cannot fail, so construction always returns `Ok`; the `Empty` error
variant is produced by no construction path. -/
def new (input : List Char) : Except LexerError Lexer :=
  Except.ok (init input)

/-- The loop body of `Lexer::eat_whitespace`: unconditionally
`read_char`, stop on `None` or a non-whitespace character, otherwise
iterate. -/
def eat_ws_go : Nat → Lexer → Lexer
  | 0, l => l
  | fuel + 1, l =>
    match (read_char l).ch with
    | none => read_char l
    | some c =>
      if rustIsWhitespace c then eat_ws_go fuel (read_char l)
      else read_char l

/-- `Lexer::eat_whitespace`.  Fuel `input.length + 1` suffices from
every state: a read starting at `read_pos ≥ input.length` yields `none`
and stops the loop, and `read_pos` grows by one per iteration. -/
def eat_whitespace (l : Lexer) : Lexer :=
  eat_ws_go (l.input.length + 1) l

/-- The `while let Some(x) = self.ch` loop of `Lexer::read_identifier`:
stop on `None` or a non-alphabetic character, otherwise `read_char` and
iterate. -/
def read_ident_go : Nat → Lexer → Lexer
  | 0, l => l
  | fuel + 1, l =>
    match l.ch with
    | none => l
    | some x =>
      if rustIsAlphabetic x then read_ident_go fuel (read_char l) else l

/-- `Lexer::read_identifier`: remember `pos`, advance once, run the
scanning loop, return `input[pos..self.pos]` as a string together with
the final state.  Fuel `input.length + 2` suffices from every state. -/
def read_identifier (l : Lexer) : String × Lexer :=
  let pos0 := l.pos
  let l' := read_ident_go (l.input.length + 2) (read_char l)
  (String.mk ((l'.input.drop pos0).take (l'.pos - pos0)), l')

/-- `Lexer::peek_char`: reads `input[read_pos]` and performs no write to
`self`, returned here as the peeked character together with the
(unchanged) state. -/
def peek_char (l : Lexer) : Option Char × Lexer :=
  if l.input.length ≤ l.read_pos then (none, l)
  else (some (l.input.getD l.read_pos default), l)

/-- The `Some(..)` arms of the `match self.ch` in `Lexer::next_token`,
in source order: the twelve single-character arms, the `=`/`==`
lookahead arm, the `Some(x) if x.is_alphabetic()` guard arm, and the
catch-all `Illegal` arm. -/
def token_of_char (c : Char) (l : Lexer) : Token × Lexer :=
  match c with
  | '+' => (Token.Plus, l)
  | '-' => (Token.Minus, l)
  | '*' => (Token.Asterisk, l)
  | '/' => (Token.Slash, l)
  | ';' => (Token.Semicolon, l)
  | '=' =>
    match (peek_char l).1 with
    | some x => if x = '=' then (Token.Eq, l) else (Token.Assign, l)
    | none => (Token.Assign, l)
  | '>' => (Token.Gt, l)
  | '<' => (Token.Lt, l)
  | '\x7b' => (Token.LBrace, l)
  | '\x7d' => (Token.RBrace, l)
  | '(' => (Token.LParen, l)
  | ')' => (Token.RParen, l)
  | x =>
    if rustIsAlphabetic x then
      let p := read_identifier l
      (Token.Ident p.1, p.2)
    else (Token.Illegal, l)

/-- `Lexer::next_token`: eat whitespace, then classify the cached
current character. -/
def next_token (l : Lexer) : Token × Lexer :=
  match (eat_whitespace l).ch with
  | none => (Token.Eof, eat_whitespace l)
  | some c => token_of_char c (eat_whitespace l)

/-- The state after `n` successive `next_token` calls. -/
def run_lexer (l : Lexer) : Nat → Lexer
  | 0 => l
  | n + 1 => (next_token (run_lexer l n)).2

/-- The token returned by the `(n+1)`-th `next_token` call (0-indexed). -/
def token_at (l : Lexer) (n : Nat) : Token :=
  (next_token (run_lexer l n)).1

/-- The first `n` tokens produced from state `l`. -/
def tokens : Lexer → Nat → List Token
  | _, 0 => []
  | l, n + 1 => (next_token l).1 :: tokens (next_token l).2 n

end Lexer

end Monkey

namespace Monkey.Lexer

/-! ## Structural lemmas about the cursor -/

theorem read_char_input (l : Lexer) : (read_char l).input = l.input := rfl

theorem read_char_pos (l : Lexer) : (read_char l).pos = l.read_pos := rfl

theorem read_char_read_pos (l : Lexer) :
    (read_char l).read_pos = l.read_pos + 1 := rfl

theorem read_char_inv (l : Lexer) :
    (read_char l).read_pos = (read_char l).pos + 1 := rfl

theorem read_char_none_iff (l : Lexer) :
    (read_char l).ch = none ↔ l.input.length ≤ l.read_pos := by
  by_cases h : l.input.length ≤ l.read_pos <;> simp [read_char, h]

theorem getD_mem_of_lt (xs : List Char) (i : Nat) (h : i < xs.length) :
    xs.getD i default ∈ xs := by
  have h1 : xs.getD i default = xs[i] := by
    simp [List.getD_eq_getElem?_getD, List.getElem?_eq_getElem h]
  rw [h1]
  exact List.getElem_mem h

/-! ## Lemmas about the whitespace loop -/

theorem eat_ws_go_input : ∀ (f : Nat) (l : Lexer),
    (eat_ws_go f l).input = l.input := by
  intro f
  induction f with
  | zero => intro l; rfl
  | succ f ih =>
    intro l
    simp only [eat_ws_go]
    split
    · rfl
    · split
      · exact (ih (read_char l)).trans rfl
      · rfl

theorem eat_ws_go_succ_inv : ∀ (f : Nat) (l : Lexer),
    (eat_ws_go (f + 1) l).read_pos = (eat_ws_go (f + 1) l).pos + 1 := by
  intro f
  induction f with
  | zero =>
    intro l
    simp only [eat_ws_go]
    split
    · rfl
    · split
      · rfl
      · rfl
  | succ f ih =>
    intro l
    simp only [eat_ws_go]
    split
    · rfl
    · split
      · exact ih (read_char l)
      · rfl

theorem eat_ws_go_succ_pos : ∀ (f : Nat) (l : Lexer),
    l.read_pos ≤ (eat_ws_go (f + 1) l).pos := by
  intro f
  induction f with
  | zero =>
    intro l
    simp only [eat_ws_go]
    split
    · exact le_refl _
    · split
      · exact le_refl _
      · exact le_refl _
  | succ f ih =>
    intro l
    simp only [eat_ws_go]
    split
    · exact le_refl _
    · split
      · exact le_trans (Nat.le_succ _) (ih (read_char l))
      · exact le_refl _

theorem eat_ws_go_succ_none : ∀ (f : Nat) (l : Lexer),
    (eat_ws_go (f + 1) l).ch = none →
    l.input.length + 1 ≤ (eat_ws_go (f + 1) l).read_pos := by
  intro f
  induction f with
  | zero =>
    intro l
    simp only [eat_ws_go]
    split
    · intro _
      have : l.input.length ≤ l.read_pos := (read_char_none_iff l).mp (by assumption)
      simp only [read_char_read_pos]
      omega
    · split
      · intro h
        rename_i c heq _
        rw [heq] at h
        exact absurd h (by simp)
      · intro h
        rename_i c heq _
        rw [heq] at h
        exact absurd h (by simp)
  | succ f ih =>
    intro l
    simp only [eat_ws_go]
    split
    · intro _
      have : l.input.length ≤ l.read_pos := (read_char_none_iff l).mp (by assumption)
      simp only [read_char_read_pos]
      omega
    · split
      · intro h
        have := ih (read_char l) h
        simp only [read_char_input, read_char_read_pos] at this ⊢
        exact this
      · intro h
        rename_i c heq _
        rw [heq] at h
        exact absurd h (by simp)

theorem eat_ws_go_all_ws : ∀ (f : Nat) (l : Lexer),
    (∀ c ∈ l.input, rustIsWhitespace c = true) →
    l.pos ≤ l.read_pos →
    l.input.length ≤ l.read_pos + f →
    (eat_ws_go (f + 1) l).ch = none := by
  intro f
  induction f with
  | zero =>
    intro l _ _ hlen
    simp only [eat_ws_go]
    have hnone : (read_char l).ch = none := (read_char_none_iff l).mpr (by omega)
    split
    · exact hnone
    · rename_i c heq
      rw [heq] at hnone
      exact absurd hnone (by simp)
  | succ f ih =>
    intro l hws hpr hlen
    simp only [eat_ws_go]
    split
    · assumption
    · rename_i c heq
      have hlt : l.read_pos < l.input.length := by
        by_contra hge
        rw [(read_char_none_iff l).mpr (by omega)] at heq
        exact absurd heq (by simp)
      have hcval : c = l.input.getD l.pos default := by
        simp only [read_char, if_neg (by omega : ¬ l.input.length ≤ l.read_pos)] at heq
        exact (Option.some.injEq _ _ ▸ heq).symm
      have hcw : rustIsWhitespace c = true := by
        rw [hcval]
        exact hws _ (getD_mem_of_lt l.input l.pos (by omega))
      rw [if_pos hcw]
      exact ih (read_char l)
        (by rw [read_char_input]; exact hws)
        (by simp only [read_char_pos, read_char_read_pos]; omega)
        (by simp only [read_char_input, read_char_read_pos]; omega)

/-! ## Lemmas about the identifier loop -/

theorem read_ident_go_input : ∀ (f : Nat) (l : Lexer),
    (read_ident_go f l).input = l.input := by
  intro f
  induction f with
  | zero => intro l; rfl
  | succ f ih =>
    intro l
    simp only [read_ident_go]
    split
    · rfl
    · split
      · exact (ih (read_char l)).trans rfl
      · rfl

theorem read_ident_go_pos_inv : ∀ (f : Nat) (l : Lexer),
    l.read_pos = l.pos + 1 →
    l.pos ≤ (read_ident_go f l).pos ∧
      (read_ident_go f l).read_pos = (read_ident_go f l).pos + 1 := by
  intro f
  induction f with
  | zero => intro l h; exact ⟨le_refl _, h⟩
  | succ f ih =>
    intro l h
    simp only [read_ident_go]
    split
    · exact ⟨le_refl _, h⟩
    · split
      · obtain ⟨h1, h2⟩ := ih (read_char l) (read_char_inv l)
        refine ⟨?_, h2⟩
        simp only [read_char_pos] at h1
        omega
      · exact ⟨le_refl _, h⟩

/-! ## Lemmas about token classification -/

theorem token_of_char_ne_eof (c : Char) (l : Lexer) :
    (token_of_char c l).1 ≠ Token.Eof := by
  unfold token_of_char
  split <;> try simp
  · split
    · split <;> simp
    · simp
  · split <;> simp

theorem token_of_char_state (c : Char) (l : Lexer)
    (h : l.read_pos = l.pos + 1) :
    l.pos ≤ (token_of_char c l).2.pos ∧
      (token_of_char c l).2.read_pos = (token_of_char c l).2.pos + 1 ∧
      (token_of_char c l).2.input = l.input := by
  unfold token_of_char
  split <;> try exact ⟨le_refl _, h, rfl⟩
  · split
    · split <;> exact ⟨le_refl _, h, rfl⟩
    · exact ⟨le_refl _, h, rfl⟩
  · split
    · dsimp only
      unfold read_identifier
      dsimp only
      obtain ⟨h1, h2⟩ := read_ident_go_pos_inv (l.input.length + 2)
        (read_char l) (read_char_inv l)
      simp only [read_char_pos] at h1
      refine ⟨by omega, h2, ?_⟩
      exact ((read_ident_go_input _ _).trans rfl)
    · exact ⟨le_refl _, h, rfl⟩

/-! ## Lemmas about `next_token` -/

theorem next_token_eq_eof (l : Lexer) (h : (next_token l).1 = Token.Eof) :
    next_token l = (Token.Eof, eat_whitespace l) ∧
      (eat_whitespace l).ch = none := by
  unfold next_token at h ⊢
  rcases hc : (eat_whitespace l).ch with _ | c
  · refine ⟨?_, rfl⟩
    simp only [hc]
  · simp only [hc] at h
    exact absurd h (token_of_char_ne_eof c (eat_whitespace l))

theorem next_token_past (l : Lexer) (h : l.input.length ≤ l.read_pos) :
    next_token l = (Token.Eof, read_char l) := by
  have hw : eat_whitespace l = read_char l := by
    unfold eat_whitespace
    simp only [eat_ws_go]
    rw [(read_char_none_iff l).mpr h]
  unfold next_token
  rw [hw, (read_char_none_iff l).mpr h]

theorem next_token_state (l : Lexer) (h : l.read_pos = l.pos + 1) :
    l.pos < (next_token l).2.pos ∧
      (next_token l).2.read_pos = (next_token l).2.pos + 1 ∧
      (next_token l).2.input = l.input := by
  have h1pos : l.pos < (eat_whitespace l).pos := by
    have := eat_ws_go_succ_pos l.input.length l
    unfold eat_whitespace
    omega
  have h1inv : (eat_whitespace l).read_pos = (eat_whitespace l).pos + 1 :=
    eat_ws_go_succ_inv l.input.length l
  have h1in : (eat_whitespace l).input = l.input :=
    eat_ws_go_input (l.input.length + 1) l
  unfold next_token
  rcases hc : (eat_whitespace l).ch with _ | c
  · simp only [hc]
    exact ⟨h1pos, h1inv, h1in⟩
  · simp only [hc]
    obtain ⟨ha, hb, hcin⟩ := token_of_char_state c (eat_whitespace l) h1inv
    exact ⟨lt_of_lt_of_le h1pos ha, hb, hcin.trans h1in⟩

/-! ## Lemmas about iterated calls -/

theorem run_lexer_state (l : Lexer) (h : l.read_pos = l.pos + 1) :
    ∀ n : Nat, n + l.pos ≤ (run_lexer l n).pos ∧
      (run_lexer l n).read_pos = (run_lexer l n).pos + 1 ∧
      (run_lexer l n).input = l.input := by
  intro n
  induction n with
  | zero => exact ⟨by simp [run_lexer], h, rfl⟩
  | succ n ih =>
    obtain ⟨h1, h2, h3⟩ := ih
    obtain ⟨g1, g2, g3⟩ := next_token_state (run_lexer l n) h2
    refine ⟨?_, g2, g3.trans h3⟩
    simp only [run_lexer]
    omega

theorem eof_forever (l : Lexer) (h : l.input.length ≤ l.read_pos) :
    ∀ n : Nat, (next_token (run_lexer l n)).1 = Token.Eof ∧
      (run_lexer l n).input.length ≤ (run_lexer l n).read_pos := by
  intro n
  induction n with
  | zero =>
    refine ⟨?_, h⟩
    rw [show run_lexer l 0 = l from rfl, next_token_past l h]
  | succ n ih =>
    obtain ⟨h1, h2⟩ := ih
    have hstep : run_lexer l (n + 1) = read_char (run_lexer l n) := by
      simp only [run_lexer]
      rw [next_token_past (run_lexer l n) h2]
    constructor
    · rw [hstep]
      rw [next_token_past (read_char (run_lexer l n))
        (by simp only [read_char_input, read_char_read_pos]; omega)]
    · rw [hstep]
      simp only [read_char_input, read_char_read_pos]
      omega

end Monkey.Lexer

namespace Monkey.Lexer

/-! ## The claims -/

/-- C1: the spec says `"let five = 5;"` lexes to
`[Let, Ident "five", Assign, Int 5, Semicolon, Eof]` (and the in-repo
test asserts that prefix).  The code instead produces
`[Ident "et ", Ident "ive ", Assign, Illegal, Eof, Eof]`: `read_char`
caches `input[pos]` *before* moving `pos`, so every scan starts one
character late, keywords are never classified, digits hit the
catch-all `Illegal` arm, and the final `;` is skipped. -/
theorem claim1_let_five_actual_tokens :
    tokens (Lexer.init ("let five = 5;".toList)) 6 =
      [Token.Ident "et ", Token.Ident "ive ", Token.Assign,
       Token.Illegal, Token.Eof, Token.Eof] ∧
    (next_token (Lexer.init ("let five = 5;".toList))).1 ≠ Token.Let := by
  decide

/-- C2: the spec says the alphabetic run `let` yields the keyword token
`Let` (the in-repo test asserts `Token::Let`).  The code never compares
the scanned text against the keyword set — `read_identifier`'s result is
always wrapped in `Token::Ident` — and, because of the one-character
cursor lag, the text scanned from input `"let"` is `"et"`, not `"let"`. -/
theorem claim2_keyword_let_actual :
    (next_token (Lexer.init ['l', 'e', 't'])).1 = Token.Ident "et" ∧
    (next_token (Lexer.init ['l', 'e', 't'])).1 ≠ Token.Let := by
  decide

/-- C3: the spec says a maximal digit run yields one `Int` token (the
in-repo test asserts `Token::Int(5)` for `"5;"` contexts).  The code has
no digit branch at all: on `"5;"` the `'5'` falls through to the
catch-all `Illegal` arm, and the following `';'` is then skipped by the
lagged cursor, so the stream is `[Illegal, Eof]`; on the one-character
input `"5"` the unconditional advance in `eat_whitespace` runs past the
end before classification, giving `[Eof]`. -/
theorem claim3_digit_actual :
    tokens (Lexer.init ['5', ';']) 2 = [Token.Illegal, Token.Eof] ∧
    tokens (Lexer.init ['5']) 1 = [Token.Eof] := by
  decide

/-- C4: the spec says `"="` yields `Assign`, `"=="` one `Eq`, `"!"`
`Bang`, `"!="` one `NotEq` (the in-repo test asserts `Bang`, `Eq`,
`NotEq`).  The code yields `[Eof]` for both one-character inputs (the
whitespace loop advances unconditionally, exhausting them before
classification), `[Assign, Eof]` for `"=="` (the lagged cursor makes
`peek_char` look one past the second `=`), and `[Illegal, Eof]` for
`"!="` (there is no `'!'` arm in the match at all). -/
theorem claim4_operator_actual :
    tokens (Lexer.init ['=']) 1 = [Token.Eof] ∧
    tokens (Lexer.init ['=', '=']) 2 = [Token.Assign, Token.Eof] ∧
    tokens (Lexer.init ['!']) 1 = [Token.Eof] ∧
    tokens (Lexer.init ['!', '=']) 2 = [Token.Illegal, Token.Eof] := by
  decide

/-- C5: once a `next_token` call has returned `Eof`, every subsequent
call on the resulting state returns `Eof` as well (and, the cursor being
a natural number that only ever grows, nothing panics or underflows). -/
theorem claim5_eof_idempotent (l : Lexer) (n : Nat)
    (h : (next_token l).1 = Token.Eof) :
    token_at (next_token l).2 n = Token.Eof := by
  obtain ⟨heq, hnone⟩ := next_token_eq_eof l h
  have hrp : l.input.length + 1 ≤ (eat_whitespace l).read_pos :=
    eat_ws_go_succ_none l.input.length l hnone
  have hin : (eat_whitespace l).input = l.input :=
    eat_ws_go_input (l.input.length + 1) l
  have hpast : (eat_whitespace l).input.length ≤ (eat_whitespace l).read_pos := by
    rw [hin]; omega
  unfold token_at
  rw [heq]
  exact (eof_forever (eat_whitespace l) hpast n).1

theorem claim5_eof_idempotent_witness :
    (next_token (Lexer.init [])).1 = Token.Eof ∧
    token_at (next_token (Lexer.init [])).2 3 = Token.Eof :=
  ⟨by decide, claim5_eof_idempotent (Lexer.init []) 3 (by decide)⟩

/-- C6: construction from the empty input succeeds (`new` returns `Ok`,
the `Empty` error variant being dead), and on any input consisting
solely of whitespace — the empty input included — the first
`next_token` call returns `Eof`. -/
theorem claim6_whitespace_eof :
    Lexer.new ([] : List Char) = Except.ok (Lexer.init []) ∧
    ∀ s : List Char, (∀ c ∈ s, rustIsWhitespace c = true) →
      (next_token (Lexer.init s)).1 = Token.Eof := by
  refine ⟨rfl, ?_⟩
  intro s hws
  have hnone : (eat_whitespace (Lexer.init s)).ch = none := by
    unfold eat_whitespace
    exact eat_ws_go_all_ws s.length (Lexer.init s) hws
      (by simp [Lexer.init, read_char]) (by simp [Lexer.init, read_char])
  unfold next_token
  rw [hnone]

theorem claim6_whitespace_eof_witness :
    (∀ c ∈ ([' ', '\t', '\n'] : List Char), rustIsWhitespace c = true) ∧
    (next_token (Lexer.init [' ', '\t', '\n'])).1 = Token.Eof :=
  ⟨by decide, claim6_whitespace_eof.2 [' ', '\t', '\n'] (by decide)⟩

/-- C7: the spec says no whitespace character ever appears in a token's
text.  On input `"a b"` the code produces `Ident " "` — a token whose
entire text is a whitespace character — because the lagged cursor makes
the identifier scan start one position late, at the `' '`. -/
theorem claim7_whitespace_in_token_text :
    (next_token (Lexer.init ['a', ' ', 'b'])).1 = Token.Ident " " ∧
    rustIsWhitespace ' ' = true := by
  decide

/-- C8: the spec's invariant says `ch` always reflects `input[pos]` when
`pos` is in bounds.  After the advance taken inside the first
`next_token`-style `read_char` on input `"ab"`, the state has `pos = 1`
(in bounds, `input[1] = 'b'`) but `ch = some 'a'`: `read_char` stores
`input[pos]` *before* overwriting `pos` with `read_pos`, so the cached
character lags the cursor by one from the second advance onwards. -/
theorem claim8_cursor_lag :
    (read_char (Lexer.init ['a', 'b'])).pos = 1 ∧
    (read_char (Lexer.init ['a', 'b'])).read_pos = 2 ∧
    (read_char (Lexer.init ['a', 'b'])).pos
      < (read_char (Lexer.init ['a', 'b'])).input.length ∧
    (read_char (Lexer.init ['a', 'b'])).ch = some 'a' ∧
    (read_char (Lexer.init ['a', 'b'])).ch
      ≠ some ((read_char (Lexer.init ['a', 'b'])).input.getD
          (read_char (Lexer.init ['a', 'b'])).pos default) := by
  decide

/-- C9: `peek_char` reads `input[read_pos]` and leaves the whole lexer
state — `input`, `pos`, `read_pos` and `ch` — unchanged: its body
performs no write to `self`. -/
theorem claim9_peek_char_pure (l : Lexer) : (peek_char l).2 = l := by
  unfold peek_char
  split <;> rfl

/-- C10: from any state satisfying the cursor invariant
`read_pos = pos + 1` (established by construction and preserved by every
call), `next_token` strictly increases `pos`; consequently a freshly
constructed lexer returns `Eof` within at most `input.length + 1` calls,
so the token stream is finite. -/
theorem claim10_progress_and_finite :
    (∀ l : Lexer, l.read_pos = l.pos + 1 → l.pos < (next_token l).2.pos) ∧
    (∀ s : List Char, ∃ k, k ≤ s.length ∧
      token_at (Lexer.init s) k = Token.Eof) := by
  constructor
  · intro l h
    exact (next_token_state l h).1
  · intro s
    refine ⟨s.length, le_refl _, ?_⟩
    obtain ⟨hp, hi, hin⟩ :=
      run_lexer_state (Lexer.init s) rfl s.length
    have hpos0 : (Lexer.init s).pos = 0 := by simp [Lexer.init, read_char]
    have hins : (Lexer.init s).input = s := rfl
    unfold token_at
    rw [next_token_past (run_lexer (Lexer.init s) s.length)
      (by rw [hin, hins]; omega)]

theorem claim10_progress_and_finite_witness :
    (Lexer.init ['a']).read_pos = (Lexer.init ['a']).pos + 1 ∧
    (Lexer.init ['a']).pos < (next_token (Lexer.init ['a'])).2.pos :=
  ⟨by decide, claim10_progress_and_finite.1 (Lexer.init ['a']) (by decide)⟩

end Monkey.Lexer
